import Mathlib

set_option maxRecDepth 8000

/-!
Verification of the Trace subsystem of `tatorscout-utils` (`src/trace.ts`).

Shallow embedding conventions:
* JS numbers are modelled as exact values: time indices as `Int`, coordinates
  as `Rat` (the code only performs exact decimal arithmetic on them), derived
  velocities as `Real` (the code applies `Math.sqrt`).
* JS strings manipulated character-by-character by the codec are modelled as
  `List Char`; action codes, which are only compared and stored, as `String`.
* Fallible code (`throw` caught by `attempt`, returning a `Result`) is
  modelled with `Except String`; the carried string mirrors the message.
* `JSON.stringify`/`JSON.parse` of the wire wrapper are modelled as identity:
  `serialize` produces the tagged wire value that `parse` consumes.
-/

/-- A trace point `[timeIndex, x, y, action]` (type `P` in `trace.ts`).
`action = none` models the "no action" sentinel `0`; `some s` a string code. -/
structure P where
  i : Int
  x : Rat
  y : Rat
  a : Option String
deriving DecidableEq, Repr

/-- The default point `[0, 0, 0, 0]` used by `Trace.expand` as the
"Default starting position" and as a `getD` fallback in statements. -/
def dfltP : P := ⟨0, 0, 0, none⟩

/-- The base-52 alphabet `'ABCDEFGHIJKLMNOPQRSTUVWXYZabcdefghijklmnopqrstuvwxyz'`. -/
def charsL : List Char := "ABCDEFGHIJKLMNOPQRSTUVWXYZabcdefghijklmnopqrstuvwxyz".data

/-- JS `String.prototype.indexOf` for a single character: first index, `-1` if absent. -/
def jsIndexOf : List Char → Char → Int
  | [], _ => -1
  | a :: rest, c =>
    if a = c then 0
    else
      let r := jsIndexOf rest c
      if r = -1 then -1 else r + 1

/-- `compressNum` from `trace.ts`: clamp an integer into `[0, 999]` and emit two
base-52 digits.  (The JS `Number.isInteger` guard cannot fire here because the
argument is typed integral.)  `getD` models `chars[k]`; the indices are in
bounds for every clamped input, so the default is never used. -/
def compressNum (n : Int) : List Char :=
  let m := if n < 0 then 0 else if 999 < n then 999 else n
  [charsL.getD (m / (charsL.length : Int)).toNat 'A',
   charsL.getD (m % (charsL.length : Int)).toNat 'A']

/-- `decompressNum` from `trace.ts`: reject strings that are not exactly two
characters or contain characters outside the alphabet, else invert base-52. -/
def decompressNum (s : List Char) : Except String Int :=
  if s.length ≠ 2 then .error "Expected 2 characters"
  else
    let i1 := jsIndexOf charsL (s.getD 0 'A')
    let i2 := jsIndexOf charsL (s.getD 1 'A')
    if i1 = -1 ∨ i2 = -1 then .error "Invalid characters in compressed string"
    else .ok (i1 * (charsL.length : Int) + i2)

/-- The `fn` helper of `decompressPoint`: both of its branches amount to
dividing the decoded integer by 1000 (`padStart` does not change the value
read back by `parseInt`). -/
def fnDiv (n : Int) : Rat := (n : Rat) / 1000

/-- Action encoding used by `compressPoint`: `p[3] === 0 ? '0' : p[3]`. -/
def actEnc : Option String → List Char
  | none => ['0']
  | some s => s.data

/-- `compressNum` applied to a coordinate: the JS code throws
`Expected integer` inside `compressNum` when the number is not integral. -/
def compressNumQ (q : Rat) : Except String (List Char) :=
  if q.den = 1 then .ok (compressNum q.num) else .error "Expected integer"

/-- `compressPoint` from `trace.ts` (fallible through `compressNum`'s
integrality guard on the coordinates). -/
def compressPoint (p : P) : Except String (List Char) := do
  let xs ← compressNumQ p.x
  let ys ← compressNumQ p.y
  .ok (compressNum p.i ++ xs ++ ys ++ actEnc p.a)

/-- `decompressPoint` from `trace.ts`: fixed-width slices
`slice(0,2)`, `slice(2,4)`, `slice(4,6)` and the variable tail `slice(6)`. -/
def decompressPoint (p : List Char) : Except String P := do
  let iv ← decompressNum (p.take 2)
  let xv ← decompressNum ((p.drop 2).take 2)
  let yv ← decompressNum ((p.drop 4).take 2)
  let a := p.drop 6
  .ok ⟨iv, fnDiv xv, fnDiv yv, if a = ['0'] then none else some (String.mk a)⟩

/-- Error-propagating map, the effect of `Array.prototype.map` when the mapped
function can throw: the first failure aborts the whole call. -/
def mapME (f : α → Except String β) : List α → Except String (List β)
  | [] => .ok []
  | a :: l => do
    let b ← f a
    let bs ← mapME f l
    .ok (b :: bs)

/-- JS `Array.prototype.join(';')`. -/
def joinSemi : List (List Char) → List Char
  | [] => []
  | [a] => a
  | a :: rest => a ++ ';' :: joinSemi rest

/-- `compress` from `trace.ts`: `trace.map(compressPoint).join(';')`. -/
def compress (trace : List P) : Except String (List Char) :=
  (mapME compressPoint trace).map joinSemi

/-- JS `String.prototype.split(';')`. -/
def splitSemi : List Char → List (List Char)
  | [] => [[]]
  | c :: rest =>
    if c = ';' then [] :: splitSemi rest
    else
      match splitSemi rest with
      | h :: t => (c :: h) :: t
      | [] => [[c]]

/-- `decompress` from `trace.ts`: `trace.split(';').map(decompressPoint)`. -/
def decompress (trace : List Char) : Except String (List P) :=
  mapME decompressPoint (splitSemi trace)

-- ### concrete inputs used as counterexamples and witnesses

/-- A single sparse point at time index 1: strictly increasing, in bounds,
and free of the "identical position and no action" pair. -/
def S0cex : List P := [⟨1, 1/2, 1/2, none⟩]

/-- A well-formed sparse input: starts at index 0, the second point carries an
action, so compaction keeps both. -/
def S0w : List P := [⟨0, 1/2, 1/2, none⟩, ⟨1, 1/2, 1/2, some "act"⟩]

/-- A sparse input in the spirit of the spec's Scenario A: a point at index 0
and an action-carrying point at index 5. -/
def SPA : List P := [⟨0, 1/10, 1/10, none⟩, ⟨5, 2/10, 2/10, some "act"⟩]

/-- 640 copies of the origin point: a length-640 input whose time indices are
all 0. -/
def bad640 : List P := List.replicate 640 dfltP

-- ### expand / deExpand / convert / Trace

/-- The point map of `Trace.expand`: `pointMap.get(i)` after
`for (const point of trace) pointMap.set(point[0], point)` — the last point
with a given time index wins, hence `find?` on the reversed list. -/
def lookupP (trace : List P) (i : Int) : Option P :=
  trace.reverse.find? (fun p => p.i = i)

/-- The backwards scan of `Trace.expand`'s filler branch: for slot `i` it walks
`j = i-1, …, 0` and returns the first `pointMap` hit, defaulting to
`[0, 0, 0, 0]`. -/
def lastBefore (trace : List P) : Nat → P
  | 0 => dfltP
  | j + 1 =>
    match lookupP trace j with
    | some p => p
    | none => lastBefore trace j

/-- The body of `Trace.expand`'s fill loop for slot `i`. -/
def fillAt (trace : List P) (i : Nat) : P :=
  match lookupP trace (i : Int) with
  | some p => p
  | none =>
    let lkp := lastBefore trace i
    ⟨(i : Int), lkp.x, lkp.y, none⟩

/-- The truncation loop of `Trace.expand` for oversized input: keep the first
point seen per time index, drop indices `≥ 640`, stop at 640 points. -/
def truncGo : List P → List Int → List P → List P
  | [], _, acc => acc.reverse
  | p :: rest, seen, acc =>
    let keep := p.i ∉ seen ∧ p.i < 640
    let acc2 := if keep then p :: acc else acc
    let seen2 := if keep then p.i :: seen else seen
    if acc2.length = 640 then acc2.reverse else truncGo rest seen2 acc2

namespace Trace

/-- `Trace.expand` from `trace.ts`. -/
def expand (trace : List P) : List P :=
  if trace.length = 640 then trace
  else if 640 < trace.length then truncGo trace [] []
  else (List.range 640).map (fillAt trace)

/-- The loop of `Trace.deExpand`, carrying `lastPoint` (the last emitted point). -/
def deExpandGo : List P → Option P → List P
  | [], _ => []
  | p :: rest, last =>
    match last with
    | some lp =>
      if p.x = lp.x ∧ p.y = lp.y ∧ p.a = none then deExpandGo rest last
      else p :: deExpandGo rest (some p)
    | none => p :: deExpandGo rest (some p)

/-- `Trace.deExpand` from `trace.ts`. -/
def deExpand (trace : List P) : List P := deExpandGo trace none

/-- The `c` helper of `Trace.convert`: clamp into `[0,1]`, map `1 ↦ 999`,
`0 ↦ 000`, and otherwise keep the first three fractional decimal digits,
zero-padded — which is `⌊m * 1000⌋` for the clamped value `m ∈ (0,1)`
(exact for every coordinate whose decimal printing carries its value). -/
def cQuant (n : Rat) : Int :=
  let m := min (max n 0) 1
  if m = 1 then 999 else if m = 0 then 0 else ⌊m * 1000⌋

/-- `hasDecimal` of `Trace.convert`: the loop-with-break is `List.any`. -/
def hasDecimal (trace : List P) : Bool :=
  trace.any (fun p => ¬(p.x.den = 1 ∧ p.y.den = 1))

/-- The per-point body of `Trace.convert`'s map: `[i, parseInt(c(x)),
parseInt(c(y)), a]`. -/
def quantP (p : P) : P := ⟨p.i, (cQuant p.x : Rat), (cQuant p.y : Rat), p.a⟩

/-- `Trace.convert` from `trace.ts`: identity when every coordinate is already
integral, otherwise quantize both coordinates of every point. -/
def convert (trace : List P) : List P :=
  if hasDecimal trace then trace.map quantP else trace

end Trace

/-- A `Trace` instance: the constructor enforces exactly 640 points. -/
structure Trace where
  points : List P
  h640 : points.length = 640

/-- `new Trace(pts)` as used inside `Trace.parse`'s `attempt`: the constructor
throw for a wrong length becomes a caught failure. -/
def mkTrace (l : List P) : Except String Trace :=
  if h : l.length = 640 then .ok ⟨l, h⟩
  else .error "Trace must have exactly 640 points"

/-- The `trace` payload of the tagged wire object (`z.unknown()` narrowed by
each branch): a string or an array of points. -/
inductive Payload where
  | str (s : List Char)
  | arr (l : List P)
deriving DecidableEq

/-- The wire shapes accepted by `Trace.parse` after `JSON.parse`: a bare array
or a `{state, trace}` object. -/
inductive Input where
  | arr (l : List P)
  | tagged (state : String) (trace : Payload)
deriving DecidableEq

/-- `TraceSchema.parse` succeeding: index an integer in `[0, 640]` (integrality
is carried by the `Int` type), coordinates in `[0, 1]`. -/
def schemaOK (l : List P) : Prop :=
  ∀ p ∈ l, 0 ≤ p.i ∧ p.i ≤ 640 ∧ 0 ≤ p.x ∧ p.x ≤ 1 ∧ 0 ≤ p.y ∧ p.y ≤ 1

instance (l : List P) : Decidable (schemaOK l) := by
  unfold schemaOK
  infer_instance

/-- The `clamp` helper of `Trace.parse`'s bare-array branch. -/
def clamp01 (n : Rat) : Rat := min (max n 0) 1

namespace Trace

/-- `Trace.parse` from `trace.ts` (the `attempt` wrapper catches every throw,
so the result is an explicit success-or-failure value). -/
def parse (data : Input) : Except String Trace :=
  match data with
  | .arr l =>
    let l2 := l.map (fun p => ⟨p.i, clamp01 p.x, clamp01 p.y, p.a⟩)
    if schemaOK l2 then mkTrace (expand l2) else .error "ZodError"
  | .tagged st payload =>
    if st = "compressed" then
      match payload with
      | .str s => do
        let pts ← decompress s
        mkTrace (expand pts)
      | .arr _ => .error "Expected trace to be a string for compressed state"
    else if st = "parsed" then
      match payload with
      | .arr l => if schemaOK l then mkTrace (expand l) else .error "ZodError"
      | .str _ => .error "Expected trace to be an array for parsed state"
    else if st = "expanded" then
      match payload with
      | .arr l => if schemaOK l then mkTrace l else .error "ZodError"
      | .str _ => .error "Expected trace to be an array for expanded state"
    else .error "ZodError"

/-- `Trace.prototype.serialize` from `trace.ts`, producing the tagged wire
value (`JSON.stringify` modelled as identity).  Fallible because the
compressed branch runs `compressNum` on the converted coordinates. -/
def serialize (T : Trace) (compressed : Bool) : Except String Input :=
  if compressed then
    (compress (convert T.points)).map (fun s => .tagged "compressed" (.str s))
  else
    .ok (.tagged "parsed" (.arr (deExpand (convert T.points))))

/-- `Trace.prototype.getSection` from `trace.ts`: `slice(0, 60)`,
`slice(60, 540)`, `slice(540, 600)`, and `[]` for any other name. -/
def getSection (T : Trace) (s : String) : List P :=
  if s = "auto" then T.points.take 60
  else if s = "teleop" then (T.points.drop 60).take 480
  else if s = "endgame" then (T.points.drop 540).take 60
  else []

end Trace

-- ### point-level codec round trip

/-- The encoded form of one integral-coordinate point. -/
def encP (p : P) : List Char :=
  compressNum p.i ++ compressNum p.x.num ++ compressNum p.y.num ++ actEnc p.a

/-- The decoded form of one integral-coordinate point: index and action
survive, coordinates come back divided by 1000. -/
def decP (p : P) : P := ⟨p.i, fnDiv p.x.num, fnDiv p.y.num, p.a⟩

-- ### velocity analytics

/-- The adjacent-pair loop of `Trace.prototype.velocityMap`:
`dx = (x2-x1)*54, dy = (y2-y1)*27, sqrt(dx*dx + dy*dy) * 4` for each pair of
consecutive points (the final `null` is filtered away). -/
noncomputable def velPairs : List P → List Real
  | p1 :: p2 :: rest =>
    (Real.sqrt (((p2.x : Real) - (p1.x : Real)) * 54 * (((p2.x : Real) - (p1.x : Real)) * 54) +
        ((p2.y : Real) - (p1.y : Real)) * 27 * (((p2.y : Real) - (p1.y : Real)) * 27)) * 4)
      :: velPairs (p2 :: rest)
  | _ => []

/-- `Trace.prototype.velocityMap` from `trace.ts`. -/
noncomputable def Trace.velocityMap (T : Trace) : List Real := velPairs T.points

/-- `buckets[bucket] += 1` of `velocityHistogram`: in-range indices increment
an element; an out-of-range (negative) index writes a non-element property of
the JS array and leaves the elements unchanged. -/
def bump (l : List Nat) (k : Int) : List Nat :=
  if 0 ≤ k ∧ k < (l.length : Int) then l.set k.toNat (l.getD k.toNat 0 + 1) else l

/-- `sorted[sorted.length - 1]` after an ascending numeric sort: the maximum
of the (nonempty) list; 0 for the empty list, which the caller rules out. -/
noncomputable def listMax : List Real → Real
  | [] => 0
  | v :: rest => rest.foldl max v

open Classical in
/-- `Trace.prototype.velocityHistogram` from `trace.ts`. -/
noncomputable def Trace.velocityHistogram (T : Trace) (bins : Nat) : List Nat × List Real :=
  let m := T.velocityMap
  if m.length = 0 then ([], [])
  else
    let mx := listMax m
    let bucketSize : Real := if mx = 0 then 1 else mx / (bins : Real)
    let labels := (List.range bins).map (fun i => ((i : Real) + 0.5) * bucketSize)
    let buckets := m.foldl
      (fun b v => bump b (min ((bins : Int) - 1) ⌊v / bucketSize⌋)) (List.replicate bins 0)
    (buckets, labels)

/-- A concrete stationary trace: 640 points at the origin. -/
def T0 : Trace :=
  ⟨(List.range 640).map (fun k => ⟨Int.ofNat k, 0, 0, none⟩),
    by rw [List.length_map, List.length_range]⟩

/-- An all-integral trace: every point sits at the corner `(1, 1)`. -/
def T1 : Trace :=
  ⟨(List.range 640).map (fun k => ⟨Int.ofNat k, 1, 1, none⟩),
    by rw [List.length_map, List.length_range]⟩

/-- A trace with genuinely fractional coordinates: every point at `(0.5, 0.5)`. -/
def Thalf : Trace :=
  ⟨(List.range 640).map (fun k => ⟨Int.ofNat k, 1/2, 1/2, none⟩),
    by rw [List.length_map, List.length_range]⟩

-- ### theorems

-- ### basic codec lemmas

theorem charsL_length : charsL.length = 52 := rfl

theorem jsIndexOf_charsL_getD (k : Nat) (hk : k < 52) :
    jsIndexOf charsL (charsL.getD k 'A') = (k : Int) := by
  revert k
  decide

theorem charsL_getD_mem (k : Nat) : charsL.getD k 'A' ∈ charsL := by
  by_cases h : k < charsL.length
  · rw [List.getD_eq_getElem _ _ h]
    exact List.getElem_mem h
  · rw [List.getD_eq_default _ _ (by omega)]
    decide

theorem semi_not_mem_charsL : ';' ∉ charsL := by decide

theorem compressNum_length (n : Int) : (compressNum n).length = 2 := rfl

theorem compressNum_mem (n : Int) : ∀ c ∈ compressNum n, c ∈ charsL := by
  intro c hc
  simp only [compressNum, List.mem_cons, List.not_mem_nil, or_false] at hc
  rcases hc with h | h <;> exact h ▸ charsL_getD_mem _

theorem compressNum_semi_free (n : Int) : ';' ∉ compressNum n := by
  intro h
  exact semi_not_mem_charsL (compressNum_mem n ';' h)

theorem compressNum_of_neg {n : Int} (h : n < 0) : compressNum n = compressNum 0 := by
  simp [compressNum, h]

theorem compressNum_of_gt {n : Int} (h : 999 < n) : compressNum n = compressNum 999 := by
  have h0 : ¬ n < 0 := by omega
  simp [compressNum, h, h0]

theorem decompressNum_compressNum {n : Int} (h0 : 0 ≤ n) (h1 : n ≤ 999) :
    decompressNum (compressNum n) = .ok n := by
  have hm : (if n < 0 then 0 else if 999 < n then 999 else n) = n := by
    split <;> [omega; (split <;> omega)]
  have hd0 : 0 ≤ n / 52 := Int.ediv_nonneg h0 (by norm_num)
  have hd1 : n / 52 < 52 := by omega
  have hr0 : 0 ≤ n % 52 := Int.emod_nonneg n (by norm_num)
  have hr1 : n % 52 < 52 := Int.emod_lt_of_pos n (by norm_num)
  have hdk : (n / 52).toNat < 52 := by omega
  have hrk : (n % 52).toNat < 52 := by omega
  have e1 := jsIndexOf_charsL_getD _ hdk
  have e2 := jsIndexOf_charsL_getD _ hrk
  simp only [compressNum, charsL_length, hm, decompressNum, List.length_cons,
    List.length_nil, List.getD_cons_zero, List.getD_cons_succ, Nat.cast_ofNat]
  rw [e1, e2]
  have hne1 : ((n / 52).toNat : Int) ≠ -1 := by omega
  have hne2 : ((n % 52).toNat : Int) ≠ -1 := by omega
  simp only [hne1, hne2, or_self, if_false, if_neg (by omega : ¬ (2 : Nat) ≠ 2)]
  congr 1
  have : ((n / 52).toNat : Int) = n / 52 := Int.toNat_of_nonneg hd0
  have : ((n % 52).toNat : Int) = n % 52 := Int.toNat_of_nonneg hr0
  omega

-- ### split / join and mapME lemmas

theorem splitSemi_no_semi (a : List Char) (h : ';' ∉ a) : splitSemi a = [a] := by
  induction a with
  | nil => rfl
  | cons c rest ih =>
    have hc : ¬ c = ';' := fun hc => h (hc ▸ List.mem_cons_self _ _)
    have hr : ';' ∉ rest := fun hr => h (List.mem_cons_of_mem _ hr)
    simp only [splitSemi, if_neg hc, ih hr]

theorem splitSemi_append_semi (a rest : List Char) (h : ';' ∉ a) :
    splitSemi (a ++ ';' :: rest) = a :: splitSemi rest := by
  induction a with
  | nil => simp [splitSemi]
  | cons c t ih =>
    have hc : ¬ c = ';' := fun hc => h (hc ▸ List.mem_cons_self _ _)
    have ht : ';' ∉ t := fun hm => h (List.mem_cons_of_mem _ hm)
    simp only [List.cons_append, splitSemi, if_neg hc]
    rw [List.append_eq, ih ht]

theorem splitSemi_joinSemi (parts : List (List Char)) (hne : parts ≠ [])
    (h : ∀ p ∈ parts, ';' ∉ p) : splitSemi (joinSemi parts) = parts := by
  induction parts with
  | nil => exact absurd rfl hne
  | cons a rest ih =>
    cases rest with
    | nil => exact splitSemi_no_semi a (h a (List.mem_cons_self _ _))
    | cons b t =>
      have ha : ';' ∉ a := h a (List.mem_cons_self _ _)
      have hr : ∀ p ∈ b :: t, ';' ∉ p := fun p hp => h p (List.mem_cons_of_mem _ hp)
      show splitSemi (a ++ ';' :: joinSemi (b :: t)) = a :: (b :: t)
      rw [splitSemi_append_semi a _ ha, ih (by simp) hr]

theorem mapME_ok_comp {l : List α} {h : α → β} {f : β → Except String γ} {g : α → γ}
    (hok : ∀ a ∈ l, f (h a) = .ok (g a)) : mapME f (l.map h) = .ok (l.map g) := by
  induction l with
  | nil => rfl
  | cons a t ih =>
    simp only [List.map_cons, mapME, hok a (List.mem_cons_self _ _),
      ih (fun b hb => hok b (List.mem_cons_of_mem _ hb))]
    rfl

theorem mapME_ok {l : List α} {f : α → Except String γ} {g : α → γ}
    (hok : ∀ a ∈ l, f a = .ok (g a)) : mapME f l = .ok (l.map g) := by
  have := mapME_ok_comp (h := id) (f := f) (g := g) (l := l) (by simpa using hok)
  simpa using this

theorem compressPoint_ok (p : P) (hx : p.x.den = 1) (hy : p.y.den = 1) :
    compressPoint p = .ok (encP p) := by
  simp only [compressPoint, compressNumQ, if_pos hx, if_pos hy, encP]
  rfl

theorem encP_semi_free (p : P) (ha : ∀ s, p.a = some s → ';' ∉ s.data) :
    ';' ∉ encP p := by
  intro hmem
  simp only [encP, List.mem_append] at hmem
  rcases hmem with ((h | h) | h) | h
  · exact compressNum_semi_free _ h
  · exact compressNum_semi_free _ h
  · exact compressNum_semi_free _ h
  · cases hpa : p.a with
    | none => rw [hpa] at h; simp [actEnc] at h
    | some s => rw [hpa] at h; exact ha s hpa h

theorem string_mk_data (s : String) : String.mk s.data = s := rfl

theorem decompressPoint_encP (p : P)
    (hi0 : 0 ≤ p.i) (hi1 : p.i ≤ 999)
    (hx0 : 0 ≤ p.x.num) (hx1 : p.x.num ≤ 999)
    (hy0 : 0 ≤ p.y.num) (hy1 : p.y.num ≤ 999)
    (ha : ∀ s, p.a = some s → s ≠ "0") :
    decompressPoint (encP p) = .ok ⟨p.i, fnDiv p.x.num, fnDiv p.y.num, p.a⟩ := by
  have l2 : ∀ m : Int, (compressNum m).length = 2 := compressNum_length
  have htake : (encP p).take 2 = compressNum p.i := by
    rw [encP, List.append_assoc, List.append_assoc, List.take_left' (l2 p.i)]
  have hd2 : (encP p).drop 2 =
      compressNum p.x.num ++ (compressNum p.y.num ++ actEnc p.a) := by
    rw [encP, List.append_assoc, List.append_assoc, List.drop_left' (l2 p.i)]
  have hd4 : (encP p).drop 4 = compressNum p.y.num ++ actEnc p.a := by
    have : (4 : Nat) = 2 + 2 := rfl
    rw [this, ← List.drop_drop, hd2, List.drop_left' (l2 p.x.num)]
  have hd6 : (encP p).drop 6 = actEnc p.a := by
    have : (6 : Nat) = 4 + 2 := rfl
    rw [this, ← List.drop_drop, hd4, List.drop_left' (l2 p.y.num)]
  have hx : ((encP p).drop 2).take 2 = compressNum p.x.num := by
    rw [hd2, List.take_left' (l2 p.x.num)]
  have hy : ((encP p).drop 4).take 2 = compressNum p.y.num := by
    rw [hd4, List.take_left' (l2 p.y.num)]
  have hact : (if (encP p).drop 6 = ['0'] then none else some (String.mk ((encP p).drop 6)))
      = p.a := by
    rw [hd6]
    cases hpa : p.a with
    | none => simp [actEnc]
    | some s =>
      have hs : s ≠ "0" := ha s hpa
      have hne : s.data ≠ ['0'] := by
        intro hdd
        exact hs (by rw [← string_mk_data s, hdd])
      simp [actEnc, hne, string_mk_data]
  have hval : decompressPoint (encP p) = .ok ⟨p.i, fnDiv p.x.num, fnDiv p.y.num,
      if (encP p).drop 6 = ['0'] then none else some (String.mk ((encP p).drop 6))⟩ := by
    simp only [decompressPoint, htake, hx, hy,
      decompressNum_compressNum hi0 hi1, decompressNum_compressNum hx0 hx1,
      decompressNum_compressNum hy0 hy1]
    rfl
  rw [hval, hact]

theorem decompress_compress (pts : List P) (hne : pts ≠ [])
    (hok : ∀ p ∈ pts, 0 ≤ p.i ∧ p.i ≤ 999 ∧ p.x.den = 1 ∧ 0 ≤ p.x.num ∧ p.x.num ≤ 999 ∧
      p.y.den = 1 ∧ 0 ≤ p.y.num ∧ p.y.num ≤ 999)
    (ha : ∀ p ∈ pts, ∀ s, p.a = some s → s ≠ "0" ∧ ';' ∉ s.data) :
    compress pts = .ok (joinSemi (pts.map encP)) ∧
    decompress (joinSemi (pts.map encP)) = .ok (pts.map decP) := by
  have h1 : mapME compressPoint pts = .ok (pts.map encP) :=
    mapME_ok (fun p hp => compressPoint_ok p (hok p hp).2.2.1 (hok p hp).2.2.2.2.2.1)
  constructor
  · rw [compress, h1]; rfl
  · have hnn : pts.map encP ≠ [] := by
      intro h
      exact hne (List.map_eq_nil_iff.mp h)
    have hsf : ∀ q ∈ pts.map encP, ';' ∉ q := by
      intro q hq
      obtain ⟨p, hp, rfl⟩ := List.mem_map.mp hq
      exact encP_semi_free p (fun s hs => (ha p hp s hs).2)
    rw [decompress, splitSemi_joinSemi _ hnn hsf]
    exact mapME_ok_comp (fun p hp => by
      obtain ⟨h1, h2, h3, h4, h5, h6, h7, h8⟩ := hok p hp
      exact decompressPoint_encP p h1 h2 h4 h5 h7 h8 (fun s hs => (ha p hp s hs).1))

-- ### expand helper lemmas

theorem lookupP_none_iff (trace : List P) (i : Int) :
    lookupP trace i = none ↔ ∀ p ∈ trace, p.i ≠ i := by
  simp [lookupP, List.find?_eq_none, List.mem_reverse]

theorem lookupP_some_mem {trace : List P} {i : Int} {p : P}
    (h : lookupP trace i = some p) : p ∈ trace ∧ p.i = i := by
  refine ⟨List.mem_reverse.mp (List.mem_of_find?_eq_some h), ?_⟩
  have := List.find?_some h
  simpa using this

theorem pairwise_unique {trace : List P}
    (hpw : trace.Pairwise fun p q => p.i < q.i)
    {p q : P} (hp : p ∈ trace) (hq : q ∈ trace) (h : p.i = q.i) : p = q := by
  induction trace with
  | nil => cases hp
  | cons a t ih =>
    rw [List.pairwise_cons] at hpw
    rcases List.mem_cons.mp hp with rfl | hp2
    · rcases List.mem_cons.mp hq with rfl | hq2
      · rfl
      · exact absurd h (by have := hpw.1 q hq2; omega)
    · rcases List.mem_cons.mp hq with rfl | hq2
      · exact absurd h (by have := hpw.1 p hp2; omega)
      · exact ih hpw.2 hp2 hq2

theorem lookupP_eq_some_of_mem {trace : List P}
    (hpw : trace.Pairwise fun p q => p.i < q.i)
    {p : P} (hp : p ∈ trace) : lookupP trace p.i = some p := by
  have hs : (trace.reverse.find? (fun q => q.i = p.i)).isSome := by
    rw [List.find?_isSome]
    exact ⟨p, List.mem_reverse.mpr hp, by simp⟩
  obtain ⟨q, hq⟩ := Option.isSome_iff_exists.mp hs
  have hq2 := lookupP_some_mem hq
  rw [lookupP, hq]
  exact congrArg some (pairwise_unique hpw hq2.1 hp hq2.2)

theorem lastBefore_of_none (trace : List P) (k : Nat)
    (h : ∀ p ∈ trace, ¬ p.i < (k : Int)) : lastBefore trace k = dfltP := by
  induction k with
  | zero => rfl
  | succ j ih =>
    have hnone : lookupP trace j = none := by
      rw [lookupP_none_iff]
      intro p hp hpe
      exact h p hp (by rw [hpe]; push_cast; omega)
    rw [lastBefore, hnone]
    exact ih (fun p hp hlt => h p hp (by push_cast; omega))

theorem lastBefore_eq_max {trace : List P}
    (hpw : trace.Pairwise fun p q => p.i < q.i)
    {q : P} (hq : q ∈ trace) (hq0 : 0 ≤ q.i) (k : Nat) (hqk : q.i < (k : Int))
    (hmax : ∀ r ∈ trace, r.i < (k : Int) → r.i ≤ q.i) : lastBefore trace k = q := by
  induction k with
  | zero => exact absurd hqk (by omega)
  | succ j ih =>
    cases hl : lookupP trace (j : Int) with
    | some r =>
      have hr := lookupP_some_mem hl
      have hrq : r = q := by
        have h1 : r.i ≤ q.i := hmax r hr.1 (by rw [hr.2]; push_cast; omega)
        have h2 : q.i ≤ r.i := by
          have := hqk
          rw [hr.2]
          push_cast at this ⊢
          omega
        exact pairwise_unique hpw hr.1 hq (by omega)
      rw [lastBefore, hl, hrq]
    | none =>
      have hne : ∀ p ∈ trace, p.i ≠ (j : Int) := (lookupP_none_iff _ _).mp hl
      have hqj : q.i < (j : Int) := by
        have := hne q hq
        push_cast at hqk
        omega
      rw [lastBefore, hl]
      exact ih hqj (fun r hr hlt => hmax r hr (by push_cast; omega))

theorem fillAt_i (trace : List P) (k : Nat) : (fillAt trace k).i = (k : Int) := by
  unfold fillAt
  cases hl : lookupP trace (k : Int) with
  | some p => exact (lookupP_some_mem hl).2
  | none => rfl

theorem expand_of_eq {l : List P} (h : l.length = 640) : Trace.expand l = l := by
  rw [Trace.expand, if_pos h]

theorem expand_of_lt {l : List P} (h : l.length < 640) :
    Trace.expand l = (List.range 640).map (fillAt l) := by
  rw [Trace.expand, if_neg (by omega), if_neg (by omega)]

theorem expand_lt_length {l : List P} (h : l.length < 640) :
    (Trace.expand l).length = 640 := by
  rw [expand_of_lt h, List.length_map, List.length_range]

theorem expand_getD {l : List P} (h : l.length < 640) (k : Nat) (hk : k < 640) :
    (Trace.expand l).getD k dfltP = fillAt l k := by
  rw [expand_of_lt h]
  have hlen : k < ((List.range 640).map (fillAt l)).length := by
    rw [List.length_map, List.length_range]; exact hk
  rw [List.getD_eq_getElem _ _ hlen, List.getElem_map, List.getElem_range]

-- ### deExpand / expand round-trip machinery

theorem deExpandGo_chain (l : List P) (lp : P)
    (h : List.Chain (fun a b => ¬(b.x = a.x ∧ b.y = a.y ∧ b.a = none)) lp l) :
    Trace.deExpandGo l (some lp) = l := by
  induction l generalizing lp with
  | nil => rfl
  | cons p rest ih =>
    rw [List.chain_cons] at h
    show (if p.x = lp.x ∧ p.y = lp.y ∧ p.a = none then Trace.deExpandGo rest (some lp)
      else p :: Trace.deExpandGo rest (some p)) = p :: rest
    rw [if_neg h.1, ih p h.2]

theorem deExpandGo_cons_none (p : P) (rest : List P) :
    Trace.deExpandGo (p :: rest) none = p :: Trace.deExpandGo rest (some p) := rfl

theorem length_le_of_pairwise_bounded (S : List P)
    (hpw : S.Pairwise fun p q => p.i < q.i)
    (hbd : ∀ p ∈ S, 0 ≤ p.i ∧ p.i < 640) : S.length ≤ 640 := by
  have hpw2 : (S.map P.i).Pairwise (· < ·) := List.pairwise_map.mpr hpw
  have hnd : (S.map P.i).Nodup := hpw2.imp (fun h => ne_of_lt h)
  have hsub : (S.map P.i).toFinset ⊆ Finset.Ico (0 : Int) 640 := by
    intro z hz
    rw [List.mem_toFinset] at hz
    obtain ⟨p, hp, rfl⟩ := List.mem_map.mp hz
    rw [Finset.mem_Ico]
    exact hbd p hp
  have hcard : (S.map P.i).toFinset.card = (S.map P.i).length :=
    List.toFinset_card_of_nodup hnd
  have hle := Finset.card_le_card hsub
  rw [hcard, Int.card_Ico, List.length_map] at hle
  simpa using hle

theorem deExpand_sim (S : List P)
    (hpw : S.Pairwise fun p q => p.i < q.i)
    (hbd : ∀ p ∈ S, 0 ≤ p.i ∧ p.i < 640)
    (hch : S.Chain' fun a b => ¬(b.x = a.x ∧ b.y = a.y ∧ b.a = none)) :
    ∀ (k a : Nat) (q : P) (pre tail : List P),
    a + k = 640 →
    S = pre ++ tail →
    pre.getLast? = some q →
    (∀ r ∈ pre, r.i < (a : Int)) →
    (∀ r ∈ S, r.i < (a : Int) → r.i ≤ q.i) →
    (∀ r ∈ tail, (a : Int) ≤ r.i) →
    Trace.deExpandGo ((List.range' a k).map (fillAt S)) (some q) = tail := by
  intro k
  induction k with
  | zero =>
    intro a q pre tail hak hS hlast hpre hmax htail
    have ht : tail = [] := by
      cases tail with
      | nil => rfl
      | cons t ts =>
        have htm : t ∈ S := by
          rw [hS]; exact List.mem_append_right _ (List.mem_cons_self _ _)
        have h1 := (hbd t htm).2
        have h2 := htail t (List.mem_cons_self _ _)
        have ha : a = 640 := by omega
        rw [ha] at h2
        push_cast at h2
        omega
    rw [ht]
    rfl
  | succ n ih =>
    intro a q pre tail hak hS hlast hpre hmax htail
    rw [List.range'_succ, List.map_cons]
    cases hl : lookupP S (a : Int) with
    | some p =>
      have hpm := lookupP_some_mem hl
      have hpt : p ∈ tail := by
        rcases List.mem_append.mp (hS ▸ hpm.1) with hin | hin
        · have := hpre p hin
          rw [hpm.2] at this
          omega
        · exact hin
      obtain ⟨t, ts, rfl⟩ : ∃ t ts, tail = t :: ts := by
        cases tail with
        | nil => cases hpt
        | cons t ts => exact ⟨t, ts, rfl⟩
      have hpwt : (t :: ts).Pairwise (fun p q => p.i < q.i) :=
        (List.pairwise_append.mp (hS ▸ hpw)).2.1
      have hteq : p = t := by
        rcases List.mem_cons.mp hpt with rfl | hmem
        · rfl
        · have h1 := (List.pairwise_cons.mp hpwt).1 p hmem
          have h2 := htail t (List.mem_cons_self _ _)
          rw [hpm.2] at h1
          omega
      have hfill : fillAt S a = p := by
        unfold fillAt
        rw [hl]
      have hcond : ¬(p.x = q.x ∧ p.y = q.y ∧ p.a = none) := by
        have hsplit := List.chain'_append.mp (hS ▸ hch)
        exact hsplit.2.2 q hlast p (by rw [← hteq] at hpt ⊢; cases hteq; simp)
      rw [hfill, hteq]
      show (if t.x = q.x ∧ t.y = q.y ∧ t.a = none
        then Trace.deExpandGo ((List.range' (a+1) n).map (fillAt S)) (some q)
        else t :: Trace.deExpandGo ((List.range' (a+1) n).map (fillAt S)) (some t)) = t :: ts
      rw [if_neg (hteq ▸ hcond)]
      congr 1
      apply ih (a+1) t (pre ++ [t]) ts
      · omega
      · rw [hS, List.append_assoc]; rfl
      · exact List.getLast?_concat _
      · intro r hr
        rcases List.mem_append.mp hr with hin | hin
        · have := hpre r hin; push_cast; omega
        · rcases List.mem_singleton.mp hin with rfl
          rw [← hteq, hpm.2]; push_cast; omega
      · intro r hr hlt
        have : r.i ≤ (a : Int) := by push_cast at hlt; omega
        rw [← hteq, hpm.2]
        exact this
      · intro r hr
        have h1 := (List.pairwise_cons.mp hpwt).1 r hr
        rw [← hteq, hpm.2] at h1
        push_cast
        omega
    | none =>
      have hnone := (lookupP_none_iff _ _).mp hl
      have hqpre : q ∈ pre := List.mem_of_getLast?_eq_some hlast
      have hqmem : q ∈ S := by rw [hS]; exact List.mem_append_left _ hqpre
      have hqa : q.i < (a : Int) := hpre q hqpre
      have hq0 : 0 ≤ q.i := (hbd q hqmem).1
      have hfill : fillAt S a = ⟨(a : Int), q.x, q.y, none⟩ := by
        unfold fillAt
        rw [hl, lastBefore_eq_max hpw hqmem hq0 a hqa hmax]
      rw [hfill]
      show (if (⟨(a : Int), q.x, q.y, none⟩ : P).x = q.x ∧
        (⟨(a : Int), q.x, q.y, none⟩ : P).y = q.y ∧ (⟨(a : Int), q.x, q.y, none⟩ : P).a = none
        then Trace.deExpandGo ((List.range' (a+1) n).map (fillAt S)) (some q)
        else _ :: Trace.deExpandGo ((List.range' (a+1) n).map (fillAt S))
          (some ⟨(a : Int), q.x, q.y, none⟩)) = tail
      rw [if_pos ⟨rfl, rfl, rfl⟩]
      apply ih (a+1) q pre tail
      · omega
      · exact hS
      · exact hlast
      · intro r hr
        have := hpre r hr; push_cast; omega
      · intro r hr hlt
        have hne := hnone r hr
        have : r.i < (a : Int) := by push_cast at hlt; omega
        exact hmax r hr this
      · intro r hr
        have h1 := htail r hr
        have hrm : r ∈ S := by rw [hS]; exact List.mem_append_right _ hr
        have hne := hnone r hrm
        push_cast
        omega

theorem expand_deExpand_roundtrip (S : List P) (p0 : P) (rest : List P)
    (hS : S = p0 :: rest) (h0 : p0.i = 0)
    (hpw : S.Pairwise fun p q => p.i < q.i)
    (hbd : ∀ p ∈ S, 0 ≤ p.i ∧ p.i < 640)
    (hch : S.Chain' fun a b => ¬(b.x = a.x ∧ b.y = a.y ∧ b.a = none)) :
    Trace.deExpand (Trace.expand S) = S := by
  have hlen := length_le_of_pairwise_bounded S hpw hbd
  by_cases heq : S.length = 640
  · rw [expand_of_eq heq, hS, Trace.deExpand, deExpandGo_cons_none]
    congr 1
    apply deExpandGo_chain
    rw [hS] at hch
    exact hch
  · have hlt : S.length < 640 := by omega
    rw [expand_of_lt hlt, List.range_eq_range',
      show (640 : Nat) = 639 + 1 from rfl, List.range'_succ, List.map_cons]
    have hm0 : p0 ∈ S := by rw [hS]; exact List.mem_cons_self _ _
    have hf0 : fillAt S 0 = p0 := by
      unfold fillAt
      have hlk := lookupP_eq_some_of_mem hpw hm0
      rw [h0] at hlk
      rw [show ((0 : Nat) : Int) = 0 from rfl, hlk]
    rw [Trace.deExpand, hf0, deExpandGo_cons_none]
    conv_rhs => rw [hS]
    congr 1
    apply deExpand_sim S hpw hbd hch 639 1 p0 [p0] rest
    · rfl
    · simpa using hS
    · rfl
    · intro r hr
      rcases List.mem_singleton.mp hr with rfl
      rw [h0]; norm_num
    · intro r hr hlt1
      have := (hbd r hr).1
      rw [h0]
      push_cast at hlt1
      omega
    · intro r hr
      rw [hS] at hpw
      have := (List.pairwise_cons.mp hpw).1 r hr
      rw [h0] at this
      push_cast
      omega

theorem c2_cex_head : Trace.deExpand (Trace.expand S0cex) =
    fillAt S0cex 0 ::
      Trace.deExpandGo ((List.range' 1 639).map (fillAt S0cex)) (some (fillAt S0cex 0)) := by
  rw [expand_of_lt (by norm_num [S0cex]), List.range_eq_range',
    show (640 : Nat) = 639 + 1 from rfl, List.range'_succ, List.map_cons]
  rfl

/-- C2 (counterexample): the sparse input `[[1, 0.5, 0.5, 0]]` has strictly
increasing, in-bounds time indices and no two points sharing both a position
and the no-action sentinel, yet `deExpand(expand(S))` is not `S`: expansion
invents the default point `[0, 0, 0, 0]` at index 0 and compaction keeps it. -/
theorem c2_claim_counterexample : Trace.deExpand (Trace.expand S0cex) ≠ S0cex := by
  intro h
  rw [c2_cex_head] at h
  have hf : fillAt S0cex 0 = dfltP := by decide
  rw [hf, show S0cex = (⟨1, 1/2, 1/2, none⟩ : P) :: [] from rfl] at h
  injection h with h1 h2
  exact absurd h1 (by decide)

/-- C2 (amended): for every nonempty sparse input whose first point is at time
index 0, with strictly increasing in-bounds time indices, such that no point
other than the first repeats the immediately preceding point's position while
carrying the no-action sentinel, `Trace.deExpand (Trace.expand S) = S`. -/
theorem c2_claim (S : List P) (p0 : P) (rest : List P)
    (hS : S = p0 :: rest) (h0 : p0.i = 0)
    (hpw : S.Pairwise fun p q => p.i < q.i)
    (hbd : ∀ p ∈ S, 0 ≤ p.i ∧ p.i < 640)
    (hch : S.Chain' fun a b => ¬(b.x = a.x ∧ b.y = a.y ∧ b.a = none)) :
    Trace.deExpand (Trace.expand S) = S :=
  expand_deExpand_roundtrip S p0 rest hS h0 hpw hbd hch

/-- C2 (witness): the round trip holds at a concrete two-point sparse input. -/
theorem c2_claim_witness : Trace.deExpand (Trace.expand S0w) = S0w :=
  c2_claim S0w ⟨0, 1/2, 1/2, none⟩ [⟨1, 1/2, 1/2, some "act"⟩] rfl rfl
    (by decide) (by decide)
    (List.chain'_cons.mpr ⟨by simp, List.chain'_singleton _⟩)

/-- C3 (counterexample): on a 640-point input whose time indices are all 0,
`Trace.expand` returns the input unchanged, so the output's time indices are
not `0, 1, …, 639` — the claimed invariant fails for such inputs. -/
theorem c3_claim_counterexample :
    (Trace.expand bad640).length = 640 ∧
    (Trace.expand bad640).map P.i ≠ (List.range 640).map Int.ofNat := by
  have hlen : bad640.length = 640 := by
    rw [bad640, List.length_replicate]
  have he : Trace.expand bad640 = bad640 := expand_of_eq hlen
  refine ⟨by rw [he, hlen], ?_⟩
  rw [he]
  intro h
  have h1 := congrArg (fun l => l.getD 1 (0 : Int)) h
  have hL : ((bad640.map P.i)).getD 1 0 = 0 := by
    rw [bad640, List.map_replicate,
      List.getD_eq_getElem _ _ (by rw [List.length_replicate]; omega),
      List.getElem_replicate]
    rfl
  have hR : ((List.range 640).map Int.ofNat).getD 1 0 = 1 := by
    rw [List.getD_eq_getElem _ _ (by simp)]
    simp
  simp only [hL, hR] at h1
  exact absurd h1 (by norm_num)

/-- C3 (amended): for every input array with fewer than 640 points, the output
of `Trace.expand` has exactly 640 points whose time indices are exactly
`0, 1, …, 639` in order. -/
theorem c3_claim (l : List P) (h : l.length < 640) :
    (Trace.expand l).length = 640 ∧
    (Trace.expand l).map P.i = (List.range 640).map Int.ofNat := by
  refine ⟨expand_lt_length h, ?_⟩
  rw [expand_of_lt h, List.map_map]
  apply List.map_congr_left
  intro k _
  exact fillAt_i l k

/-- C3 (witness): the amended invariant holds at the empty input. -/
theorem c3_claim_witness :
    (Trace.expand []).length = 640 ∧
    (Trace.expand []).map P.i = (List.range 640).map Int.ofNat :=
  c3_claim [] (by decide)

/-- C4: for every sparse input with fewer than 640 points, strictly increasing
in-bounds time indices, `Trace.expand` copies each present point verbatim at
its time index; at every missing index it synthesizes a filler whose position
comes from the nearest earlier present point (`(0,0)` when none exists) and
whose action is the no-action sentinel. -/
theorem c4_claim (l : List P) (hlen : l.length < 640)
    (hpw : l.Pairwise fun p q => p.i < q.i)
    (hbd : ∀ p ∈ l, 0 ≤ p.i ∧ p.i < 640)
    (k : Nat) (hk : k < 640) :
    (∀ p ∈ l, p.i = (k : Int) → (Trace.expand l).getD k dfltP = p) ∧
    ((∀ p ∈ l, p.i ≠ (k : Int)) →
      ((Trace.expand l).getD k dfltP).i = (k : Int) ∧
      ((Trace.expand l).getD k dfltP).a = none ∧
      ((∀ p ∈ l, ¬ p.i < (k : Int)) →
        ((Trace.expand l).getD k dfltP).x = 0 ∧ ((Trace.expand l).getD k dfltP).y = 0) ∧
      (∀ p ∈ l, p.i < (k : Int) → (∀ q ∈ l, q.i < (k : Int) → q.i ≤ p.i) →
        ((Trace.expand l).getD k dfltP).x = p.x ∧
        ((Trace.expand l).getD k dfltP).y = p.y)) := by
  rw [expand_getD hlen k hk]
  constructor
  · intro p hp hpi
    unfold fillAt
    rw [← hpi, lookupP_eq_some_of_mem hpw hp]
  · intro hnone
    have hl : lookupP l (k : Int) = none := (lookupP_none_iff _ _).mpr hnone
    have hfill : fillAt l k = ⟨(k : Int), (lastBefore l k).x, (lastBefore l k).y, none⟩ := by
      unfold fillAt
      rw [hl]
    rw [hfill]
    refine ⟨rfl, rfl, ?_, ?_⟩
    · intro hno
      rw [lastBefore_of_none l k hno]
      exact ⟨rfl, rfl⟩
    · intro p hp hpk hmax
      rw [lastBefore_eq_max hpw hp (hbd p hp).1 k hpk hmax]
      exact ⟨rfl, rfl⟩

/-- C4 (witness): at the Scenario-A style input, slot 7 is a filler carrying
the position of the index-5 point and no action. -/
theorem c4_claim_witness :
    ((Trace.expand SPA).getD 7 dfltP).a = none ∧
    ((Trace.expand SPA).getD 7 dfltP).x = 2/10 ∧
    ((Trace.expand SPA).getD 7 dfltP).i = 7 := by
  have h := c4_claim SPA (by decide) (by decide) (by decide) 7 (by decide)
  have h2 := h.2 (by decide)
  refine ⟨h2.2.1, ?_, h2.1⟩
  exact (h2.2.2.2 ⟨5, 2/10, 2/10, some "act"⟩ (by simp [SPA]) (by decide) (by decide)).1

-- ### C6: compressNum bounds and values

/-- C6: for every integer `n`, `compressNum n` is exactly 2 characters drawn
from the 52-letter alphabet; negative inputs encode like 0 and inputs above
999 like 999 (saturation); `compressNum 0 = "AA"`, `compressNum 52 = "BA"`,
and `compressNum 1000 = compressNum 999`. -/
theorem c6_claim (n : Int) :
    (compressNum n).length = 2 ∧
    (∀ c ∈ compressNum n, c ∈ charsL) ∧
    (n < 0 → compressNum n = compressNum 0) ∧
    (999 < n → compressNum n = compressNum 999) ∧
    compressNum 0 = "AA".data ∧
    compressNum 52 = "BA".data ∧
    compressNum 1000 = compressNum 999 := by
  refine ⟨compressNum_length n, compressNum_mem n, fun h => compressNum_of_neg h,
    fun h => compressNum_of_gt h, by decide, by decide, compressNum_of_gt (by norm_num)⟩

/-- C6 (witness): the saturation clauses at the concrete inputs `-5` and `1000`. -/
theorem c6_claim_witness :
    (compressNum (-5)).length = 2 ∧ compressNum (-5) = compressNum 0 ∧
    compressNum 1000 = compressNum 999 :=
  ⟨(c6_claim (-5)).1, (c6_claim (-5)).2.2.1 (by norm_num), (c6_claim (-5)).2.2.2.2.2.2⟩

-- ### velocity lemmas

theorem velPairs_length (l : List P) : (velPairs l).length = l.length - 1 := by
  induction l with
  | nil => rfl
  | cons a t ih =>
    cases t with
    | nil => rfl
    | cons b r =>
      simp only [velPairs, List.length_cons, ih]
      omega

theorem velPairs_nonneg (l : List P) : ∀ v ∈ velPairs l, 0 ≤ v := by
  induction l with
  | nil => intro v hv; simp [velPairs] at hv
  | cons a t ih =>
    cases t with
    | nil => intro v hv; simp [velPairs] at hv
    | cons b r =>
      intro v hv
      simp only [velPairs, List.mem_cons] at hv
      rcases hv with rfl | hv
      · exact mul_nonneg (Real.sqrt_nonneg _) (by norm_num)
      · exact ih v hv

theorem velPairs_getD (l : List P) (k : Nat) (hk : k + 1 < l.length) :
    (velPairs l).getD k 0 =
      Real.sqrt ((((l.getD (k+1) dfltP).x : Real) - ((l.getD k dfltP).x : Real)) * 54 *
          ((((l.getD (k+1) dfltP).x : Real) - ((l.getD k dfltP).x : Real)) * 54) +
        (((l.getD (k+1) dfltP).y : Real) - ((l.getD k dfltP).y : Real)) * 27 *
          ((((l.getD (k+1) dfltP).y : Real) - ((l.getD k dfltP).y : Real)) * 27)) * 4 := by
  induction l generalizing k with
  | nil => simp at hk
  | cons a t ih =>
    cases t with
    | nil => simp at hk
    | cons b r =>
      cases k with
      | zero => simp [velPairs, List.getD_cons_zero, List.getD_cons_succ]
      | succ k2 =>
        simp only [velPairs, List.getD_cons_succ]
        exact ih k2 (by simp at hk ⊢; omega)

theorem velocityMap_ne_nil (T : Trace) : T.velocityMap ≠ [] := by
  intro h
  have hlen := congrArg List.length h
  rw [show Trace.velocityMap T = velPairs T.points from rfl, velPairs_length, T.h640] at hlen
  simp at hlen

theorem bump_length (l : List Nat) (k : Int) : (bump l k).length = l.length := by
  unfold bump
  split
  · exact List.length_set l _ _
  · rfl

theorem sum_set_succ (l : List Nat) (n : Nat) (h : n < l.length) :
    (l.set n (l.getD n 0 + 1)).sum = l.sum + 1 := by
  induction l generalizing n with
  | nil => simp at h
  | cons a t ih =>
    cases n with
    | zero =>
      show ((a + 1) :: t).sum = (a :: t).sum + 1
      simp [List.sum_cons]
      omega
    | succ m =>
      show (a :: t.set m (t.getD m 0 + 1)).sum = (a :: t).sum + 1
      rw [List.sum_cons, List.sum_cons, ih m (by simpa using h)]
      omega

theorem bump_sum {l : List Nat} {k : Int} (h0 : 0 ≤ k) (h1 : k < (l.length : Int)) :
    (bump l k).sum = l.sum + 1 := by
  unfold bump
  rw [if_pos ⟨h0, h1⟩]
  exact sum_set_succ l k.toNat (by omega)

theorem fold_bump_sum (f : Real → Int) (m : List Real) (acc : List Nat)
    (h : ∀ v ∈ m, 0 ≤ f v ∧ f v < (acc.length : Int)) :
    (m.foldl (fun b v => bump b (f v)) acc).sum = acc.sum + m.length := by
  induction m generalizing acc with
  | nil => simp
  | cons v t ih =>
    rw [List.foldl_cons]
    have hv := h v (List.mem_cons_self _ _)
    have hrec := ih (bump acc (f v))
      (fun w hw => by rw [bump_length]; exact h w (List.mem_cons_of_mem _ hw))
    rw [hrec, bump_sum hv.1 hv.2, List.length_cons]
    omega

theorem le_foldl_max (l : List Real) (a : Real) : a ≤ l.foldl max a := by
  induction l generalizing a with
  | nil => simp
  | cons b t ih => exact le_trans (le_max_left a b) (ih (max a b))

theorem mem_le_foldl_max (l : List Real) (a : Real) : ∀ v ∈ l, v ≤ l.foldl max a := by
  induction l generalizing a with
  | nil => intro v hv; simp at hv
  | cons b t ih =>
    intro v hv
    rcases List.mem_cons.mp hv with rfl | hv2
    · exact le_trans (le_max_right a v) (le_foldl_max t (max a v))
    · exact ih (max a b) v hv2

theorem listMax_nonneg {m : List Real} (hne : m ≠ []) (h : ∀ v ∈ m, 0 ≤ v) :
    0 ≤ listMax m := by
  cases m with
  | nil => exact absurd rfl hne
  | cons a t => exact le_trans (h a (List.mem_cons_self _ _)) (le_foldl_max t a)

/-- C7: for every Trace with a nonempty velocity series and every number of
bins `≥ 1`, the histogram's bucket counts sum to the length of the velocity
series — each velocity lands in exactly one bucket. -/
theorem c7_claim (T : Trace) (bins : Nat) (hm : T.velocityMap ≠ []) (hb : 1 ≤ bins) :
    ((T.velocityHistogram bins).1).sum = (T.velocityMap).length := by
  have hlen0 : ¬ (T.velocityMap.length = 0) := fun h => hm (List.eq_nil_of_length_eq_zero h)
  have hnn : ∀ v ∈ T.velocityMap, 0 ≤ v := velPairs_nonneg T.points
  simp only [Trace.velocityHistogram, if_neg hlen0]
  have hbs : (0 : Real) <
      (if listMax T.velocityMap = 0 then 1 else listMax T.velocityMap / (bins : Real)) := by
    by_cases hmx : listMax T.velocityMap = 0
    · rw [if_pos hmx]; norm_num
    · rw [if_neg hmx]
      have h0 : 0 ≤ listMax T.velocityMap := listMax_nonneg hm hnn
      have hpos : 0 < listMax T.velocityMap := lt_of_le_of_ne h0 (Ne.symm hmx)
      exact div_pos hpos (by exact_mod_cast Nat.lt_of_lt_of_le Nat.zero_lt_one hb)
  rw [fold_bump_sum _ _ _ ?_, List.sum_replicate]
  · simp
  · intro v hv
    constructor
    · refine le_min (by omega) ?_
      exact Int.floor_nonneg.mpr (div_nonneg (hnn v hv) hbs.le)
    · rw [List.length_replicate]
      exact lt_of_le_of_lt (min_le_left _ _) (by omega)

/-- C7 (witness): the histogram invariant at the concrete stationary trace
with 4 bins. -/
theorem c7_claim_witness :
    ((T0.velocityHistogram 4).1).sum = (T0.velocityMap).length :=
  c7_claim T0 4 (velocityMap_ne_nil T0) (by norm_num)

/-- C8: for every Trace, `velocityMap` has exactly 639 entries
(`GRID_SIZE - 1`), and the `k`-th entry is
`sqrt(((x_{k+1} - x_k) * 54)^2 + ((y_{k+1} - y_k) * 27)^2) * 4`. -/
theorem c8_claim (T : Trace) (k : Nat) (hk : k < 639) :
    T.velocityMap.length = 639 ∧
    T.velocityMap.getD k 0 =
      Real.sqrt (((((T.points.getD (k+1) dfltP).x : Real) -
          ((T.points.getD k dfltP).x : Real)) * 54)^2 +
        ((((T.points.getD (k+1) dfltP).y : Real) -
          ((T.points.getD k dfltP).y : Real)) * 27)^2) * 4 := by
  constructor
  · show (velPairs T.points).length = 639
    rw [velPairs_length, T.h640]
  · have hg := velPairs_getD T.points k (by rw [T.h640]; omega)
    rw [show Trace.velocityMap T = velPairs T.points from rfl, hg]
    congr 2
    ring

/-- C8 (witness): the length clause at the concrete stationary trace. -/
theorem c8_claim_witness : T0.velocityMap.length = 639 :=
  (c8_claim T0 0 (by norm_num)).1

-- ### C10: match sections

/-- C10: for every Trace, the three sections are the slices
`[0,60)`, `[60,540)`, `[540,600)` of the 640-point grid; their concatenation
is exactly the first 600 points, the final 40 points (indices 600–639) are in
no section, and any other section name yields the empty array. -/
theorem c10_claim (T : Trace) :
    T.getSection "auto" ++ T.getSection "teleop" ++ T.getSection "endgame" =
      T.points.take 600 ∧
    (T.getSection "auto").length = 60 ∧
    (T.getSection "teleop").length = 480 ∧
    (T.getSection "endgame").length = 60 ∧
    (T.points.drop 600).length = 40 ∧
    (∀ s : String, s ≠ "auto" → s ≠ "teleop" → s ≠ "endgame" →
      T.getSection s = []) := by
  have h640 := T.h640
  have hauto : T.getSection "auto" = T.points.take 60 := by
    simp [Trace.getSection]
  have htele : T.getSection "teleop" = (T.points.drop 60).take 480 := by
    simp [Trace.getSection]
  have hend : T.getSection "endgame" = (T.points.drop 540).take 60 := by
    simp [Trace.getSection]
  refine ⟨?_, ?_, ?_, ?_, ?_, ?_⟩
  · rw [hauto, htele, hend,
      show (600 : Nat) = 60 + 540 from rfl, List.take_add,
      show (540 : Nat) = 480 + 60 from rfl, List.take_add,
      List.drop_drop, List.append_assoc]
  · rw [hauto, List.length_take, h640]
    omega
  · rw [htele, List.length_take, List.length_drop, h640]
    omega
  · rw [hend, List.length_take, List.length_drop, h640]
    omega
  · rw [List.length_drop, h640]
  · intro s h1 h2 h3
    rw [Trace.getSection, if_neg h1, if_neg h2, if_neg h3]

/-- C10 (witness): the concatenation identity and the unknown-name clause at
the concrete stationary trace. -/
theorem c10_claim_witness :
    (T0.getSection "auto" ++ T0.getSection "teleop" ++ T0.getSection "endgame" =
      T0.points.take 600) ∧ T0.getSection "park" = [] :=
  ⟨(c10_claim T0).1, (c10_claim T0).2.2.2.2.2 "park" (by decide) (by decide) (by decide)⟩

-- ### convert / quantization lemmas

theorem hasDecimal_eq_true {l : List P}
    (hd : ∃ p ∈ l, ¬(p.x.den = 1 ∧ p.y.den = 1)) : Trace.hasDecimal l = true := by
  rw [Trace.hasDecimal, List.any_eq_true]
  obtain ⟨p, hp, hnd⟩ := hd
  exact ⟨p, hp, by simp only [decide_eq_true_eq]; exact hnd⟩

theorem convert_eq_map {l : List P} (hd : Trace.hasDecimal l = true) :
    Trace.convert l = l.map Trace.quantP := by
  rw [Trace.convert, hd]
  rfl

theorem convert_eq_self {l : List P} (hd : Trace.hasDecimal l = false) :
    Trace.convert l = l := by
  rw [Trace.convert, hd]
  rfl

theorem cQuant_range {x : Rat} (h0 : 0 ≤ x) (h1 : x ≤ 1) :
    0 ≤ Trace.cQuant x ∧ Trace.cQuant x ≤ 999 := by
  have hm : min (max x 0) 1 = x := by rw [max_eq_left h0, min_eq_left h1]
  rw [Trace.cQuant]
  simp only [hm]
  by_cases hx1 : x = 1
  · rw [if_pos hx1]
    norm_num
  · rw [if_neg hx1]
    by_cases hx0 : x = 0
    · rw [if_pos hx0]
      norm_num
    · rw [if_neg hx0]
      constructor
      · exact Int.floor_nonneg.mpr (by positivity)
      · have hlt : x < 1 := lt_of_le_of_ne h1 hx1
        have : x * 1000 < 1000 := by nlinarith
        have := Int.floor_lt.mpr (by exact_mod_cast this : x * 1000 < ((1000 : Int) : Rat))
        omega

theorem cQuant_approx {x : Rat} (h0 : 0 ≤ x) (h1 : x ≤ 1) :
    |x - (Trace.cQuant x : Rat) / 1000| ≤ 1/1000 := by
  have hm : min (max x 0) 1 = x := by rw [max_eq_left h0, min_eq_left h1]
  rw [Trace.cQuant]
  simp only [hm]
  by_cases hx1 : x = 1
  · rw [if_pos hx1, hx1, abs_le]
    norm_num
  · rw [if_neg hx1]
    by_cases hx0 : x = 0
    · rw [if_pos hx0, hx0]
      norm_num
    · rw [if_neg hx0]
      have hfl : ((⌊x * 1000⌋ : Int) : Rat) ≤ x * 1000 := Int.floor_le _
      have hfu : x * 1000 < (⌊x * 1000⌋ : Rat) + 1 := Int.lt_floor_add_one _
      have hnn : 0 ≤ x - (⌊x * 1000⌋ : Rat) / 1000 := by
        rw [sub_nonneg, div_le_iff₀ (by norm_num : (0:Rat) < 1000)]
        linarith
      rw [abs_of_nonneg hnn]
      rw [sub_le_iff_le_add, div_add_div_same, le_div_iff₀ (by norm_num : (0:Rat) < 1000)]
      linarith

-- ### serialize/parse pipeline for the compressed wire form

theorem serialize_parse_ok (T : Trace) (cpts : List P)
    (hconv : Trace.convert T.points = cpts)
    (hlen : cpts.length = 640)
    (hok : ∀ p ∈ cpts, 0 ≤ p.i ∧ p.i ≤ 999 ∧ p.x.den = 1 ∧ 0 ≤ p.x.num ∧ p.x.num ≤ 999 ∧
      p.y.den = 1 ∧ 0 ≤ p.y.num ∧ p.y.num ≤ 999)
    (hact : ∀ p ∈ cpts, ∀ s, p.a = some s → s ≠ "0" ∧ ';' ∉ s.data) :
    Trace.serialize T true = .ok (.tagged "compressed" (.str (joinSemi (cpts.map encP)))) ∧
    Trace.parse (.tagged "compressed" (.str (joinSemi (cpts.map encP)))) =
      .ok ⟨cpts.map decP, by rw [List.length_map, hlen]⟩ := by
  have hne : cpts ≠ [] := by
    intro h
    rw [h] at hlen
    simp at hlen
  obtain ⟨hcomp, hdecomp⟩ := decompress_compress cpts hne hok hact
  have hlen2 : (cpts.map decP).length = 640 := by rw [List.length_map, hlen]
  constructor
  · show (compress (Trace.convert T.points)).map _ = _
    rw [hconv, hcomp]
    rfl
  · show (do
      let pts ← decompress (joinSemi (cpts.map encP))
      mkTrace (Trace.expand pts) : Except String Trace) = _
    rw [hdecomp]
    show mkTrace (Trace.expand (cpts.map decP)) = _
    rw [expand_of_eq hlen2, mkTrace, dif_pos hlen2]

/-- C1 (amended): for every Trace of schema-valid points whose string actions
are codec-safe (not the literal `"0"`, no `';'`) and at least one coordinate
is non-integral (so `convert` actually quantizes), the compressed round trip
succeeds and preserves timeIndex and action pointwise, with every coordinate
within 0.001 of the original (truncating quantization; the bound is attained
at coordinate value 1). -/
theorem c1_claim (T : Trace)
    (hv : ∀ p ∈ T.points, 0 ≤ p.i ∧ p.i ≤ 640 ∧ 0 ≤ p.x ∧ p.x ≤ 1 ∧ 0 ≤ p.y ∧ p.y ≤ 1)
    (ha : ∀ p ∈ T.points, ∀ s, p.a = some s → s ≠ "0" ∧ ';' ∉ s.data)
    (hd : ∃ p ∈ T.points, ¬(p.x.den = 1 ∧ p.y.den = 1)) :
    ∃ w T2, Trace.serialize T true = .ok w ∧ Trace.parse w = .ok T2 ∧
      ∀ k : Nat, k < 640 →
        (T2.points.getD k dfltP).i = (T.points.getD k dfltP).i ∧
        (T2.points.getD k dfltP).a = (T.points.getD k dfltP).a ∧
        |(T2.points.getD k dfltP).x - (T.points.getD k dfltP).x| ≤ 1/1000 ∧
        |(T2.points.getD k dfltP).y - (T.points.getD k dfltP).y| ≤ 1/1000 := by
  have hconv : Trace.convert T.points = T.points.map Trace.quantP :=
    convert_eq_map (hasDecimal_eq_true hd)
  have hlen : (T.points.map Trace.quantP).length = 640 := by
    rw [List.length_map, T.h640]
  have hok : ∀ p ∈ T.points.map Trace.quantP, 0 ≤ p.i ∧ p.i ≤ 999 ∧ p.x.den = 1 ∧
      0 ≤ p.x.num ∧ p.x.num ≤ 999 ∧ p.y.den = 1 ∧ 0 ≤ p.y.num ∧ p.y.num ≤ 999 := by
    intro p hp
    obtain ⟨q, hq, rfl⟩ := List.mem_map.mp hp
    obtain ⟨h1, h2, h3, h4, h5, h6⟩ := hv q hq
    have hx := cQuant_range h3 h4
    have hy := cQuant_range h5 h6
    refine ⟨h1, ?_, ?_, ?_, ?_, ?_, ?_, ?_⟩
    · show q.i ≤ 999
      omega
    · exact Rat.den_intCast _
    · show 0 ≤ ((Trace.cQuant q.x : Int) : Rat).num
      rw [Rat.num_intCast]
      exact hx.1
    · show ((Trace.cQuant q.x : Int) : Rat).num ≤ 999
      rw [Rat.num_intCast]
      exact hx.2
    · exact Rat.den_intCast _
    · show 0 ≤ ((Trace.cQuant q.y : Int) : Rat).num
      rw [Rat.num_intCast]
      exact hy.1
    · show ((Trace.cQuant q.y : Int) : Rat).num ≤ 999
      rw [Rat.num_intCast]
      exact hy.2
  have hact2 : ∀ p ∈ T.points.map Trace.quantP, ∀ s, p.a = some s →
      s ≠ "0" ∧ ';' ∉ s.data := by
    intro p hp s hs
    obtain ⟨q, hq, rfl⟩ := List.mem_map.mp hp
    exact ha q hq s hs
  obtain ⟨hser, hpar⟩ := serialize_parse_ok T _ hconv hlen hok hact2
  refine ⟨_, _, hser, hpar, ?_⟩
  intro k hk
  have hklt : k < T.points.length := by rw [T.h640]; exact hk
  have hmm : ((T.points.map Trace.quantP).map decP).getD k dfltP =
      decP (Trace.quantP (T.points.getD k dfltP)) := by
    rw [List.map_map,
      List.getD_eq_getElem _ _ (by rw [List.length_map]; exact hklt),
      List.getElem_map, List.getD_eq_getElem _ _ hklt]
    rfl
  have hpk : T.points.getD k dfltP ∈ T.points := by
    rw [List.getD_eq_getElem _ _ hklt]
    exact List.getElem_mem hklt
  obtain ⟨h1, h2, h3, h4, h5, h6⟩ := hv _ hpk
  have hxv : (decP (Trace.quantP (T.points.getD k dfltP))).x =
      (Trace.cQuant (T.points.getD k dfltP).x : Rat) / 1000 := by
    show fnDiv ((Trace.quantP (T.points.getD k dfltP)).x.num) = _
    rw [show (Trace.quantP (T.points.getD k dfltP)).x =
      ((Trace.cQuant (T.points.getD k dfltP).x : Int) : Rat) from rfl, Rat.num_intCast]
    rfl
  have hyv : (decP (Trace.quantP (T.points.getD k dfltP))).y =
      (Trace.cQuant (T.points.getD k dfltP).y : Rat) / 1000 := by
    show fnDiv ((Trace.quantP (T.points.getD k dfltP)).y.num) = _
    rw [show (Trace.quantP (T.points.getD k dfltP)).y =
      ((Trace.cQuant (T.points.getD k dfltP).y : Int) : Rat) from rfl, Rat.num_intCast]
    rfl
  refine ⟨?_, ?_, ?_, ?_⟩
  · show (((T.points.map Trace.quantP).map decP).getD k dfltP).i = _
    rw [hmm]
    rfl
  · show (((T.points.map Trace.quantP).map decP).getD k dfltP).a = _
    rw [hmm]
    rfl
  · show |(((T.points.map Trace.quantP).map decP).getD k dfltP).x - _| ≤ _
    rw [hmm, hxv, abs_sub_comm]
    exact cQuant_approx h3 h4
  · show |(((T.points.map Trace.quantP).map decP).getD k dfltP).y - _| ≤ _
    rw [hmm, hyv, abs_sub_comm]
    exact cQuant_approx h5 h6

/-- C1 (witness): the amended round trip at the concrete trace whose points
all sit at `(0.5, 0.5)`. -/
theorem c1_claim_witness :
    ∃ w T2, Trace.serialize Thalf true = .ok w ∧ Trace.parse w = .ok T2 ∧
      ∀ k : Nat, k < 640 →
        (T2.points.getD k dfltP).i = (Thalf.points.getD k dfltP).i ∧
        (T2.points.getD k dfltP).a = (Thalf.points.getD k dfltP).a ∧
        |(T2.points.getD k dfltP).x - (Thalf.points.getD k dfltP).x| ≤ 1/1000 ∧
        |(T2.points.getD k dfltP).y - (Thalf.points.getD k dfltP).y| ≤ 1/1000 := by
  apply c1_claim Thalf
  · intro p hp
    obtain ⟨k, hk, rfl⟩ := List.mem_map.mp hp
    rw [List.mem_range] at hk
    refine ⟨?_, ?_, ?_, ?_, ?_, ?_⟩
    · show (0:Int) ≤ Int.ofNat k
      rw [Int.ofNat_eq_natCast]
      omega
    · show (Int.ofNat k : Int) ≤ 640
      rw [Int.ofNat_eq_natCast]
      omega
    · show (0:Rat) ≤ 1/2
      norm_num
    · show (1:Rat)/2 ≤ 1
      norm_num
    · show (0:Rat) ≤ 1/2
      norm_num
    · show (1:Rat)/2 ≤ 1
      norm_num
  · intro p hp s hs
    obtain ⟨k, hk, rfl⟩ := List.mem_map.mp hp
    cases hs
  · refine ⟨⟨Int.ofNat 0, 1/2, 1/2, none⟩,
      List.mem_map.mpr ⟨0, List.mem_range.mpr (by norm_num), rfl⟩, ?_⟩
    show ¬((1/2 : Rat).den = 1 ∧ (1/2 : Rat).den = 1)
    norm_num

/-- C1 (counterexample): for the valid all-integral trace whose points all sit
at `(1, 1)`, `Trace.parse(T.serialize(true))` succeeds but returns coordinate
`0.001` where the original is `1`: `convert` skips quantization for integral
coordinates, the codec then decodes the raw integer 1 as `1/1000`, and the
error `|1 - 0.001| = 0.999` far exceeds the claimed bound `0.0005`. -/
theorem c1_claim_counterexample :
    ((Trace.serialize T1 true).bind Trace.parse).map
      (fun T2 => ((T2.points.getD 0 dfltP).x, (T1.points.getD 0 dfltP).x)) =
      .ok (1/1000, 1) ∧
    ¬(|(1 : Rat) - 1/1000| ≤ 1/2000) := by
  constructor
  · have hfalse : Trace.hasDecimal T1.points = false := by
      rw [Trace.hasDecimal, List.any_eq_false]
      intro p hp
      obtain ⟨k, hk, rfl⟩ := List.mem_map.mp hp
      simp
    have hconv : Trace.convert T1.points = T1.points := convert_eq_self hfalse
    have hok : ∀ p ∈ T1.points, 0 ≤ p.i ∧ p.i ≤ 999 ∧ p.x.den = 1 ∧
        0 ≤ p.x.num ∧ p.x.num ≤ 999 ∧ p.y.den = 1 ∧ 0 ≤ p.y.num ∧ p.y.num ≤ 999 := by
      intro p hp
      obtain ⟨k, hk, rfl⟩ := List.mem_map.mp hp
      rw [List.mem_range] at hk
      refine ⟨?_, ?_, ?_, ?_, ?_, ?_, ?_, ?_⟩
      · show (0:Int) ≤ Int.ofNat k
        rw [Int.ofNat_eq_natCast]
        omega
      · show (Int.ofNat k : Int) ≤ 999
        rw [Int.ofNat_eq_natCast]
        omega
      · show (1 : Rat).den = 1
        norm_num
      · show (0:Int) ≤ (1 : Rat).num
        norm_num
      · show (1 : Rat).num ≤ 999
        norm_num
      · show (1 : Rat).den = 1
        norm_num
      · show (0:Int) ≤ (1 : Rat).num
        norm_num
      · show (1 : Rat).num ≤ 999
        norm_num
    have hact : ∀ p ∈ T1.points, ∀ s, p.a = some s → s ≠ "0" ∧ ';' ∉ s.data := by
      intro p hp s hs
      obtain ⟨k, hk, rfl⟩ := List.mem_map.mp hp
      cases hs
    obtain ⟨hser, hpar⟩ := serialize_parse_ok T1 T1.points hconv T1.h640 hok hact
    rw [hser, show (Except.ok (Input.tagged "compressed"
        (Payload.str (joinSemi (T1.points.map encP)))) : Except String Input).bind
        Trace.parse = Trace.parse (.tagged "compressed"
        (.str (joinSemi (T1.points.map encP)))) from rfl, hpar]
    have hg1 : (T1.points.map decP).getD 0 dfltP = decP ⟨Int.ofNat 0, 1, 1, none⟩ := by
      show ((((List.range 640).map (fun k => (⟨Int.ofNat k, 1, 1, none⟩ : P))).map
        decP).getD 0 dfltP) = _
      rw [List.map_map,
        List.getD_eq_getElem _ _ (by rw [List.length_map, List.length_range]; norm_num),
        List.getElem_map, List.getElem_range]
      rfl
    have hg2 : (T1.points.getD 0 dfltP) = ⟨Int.ofNat 0, 1, 1, none⟩ := by
      show (((List.range 640).map (fun k => (⟨Int.ofNat k, 1, 1, none⟩ : P))).getD
        0 dfltP) = _
      rw [List.getD_eq_getElem _ _ (by rw [List.length_map, List.length_range]; norm_num),
        List.getElem_map, List.getElem_range]
    show Except.ok (((T1.points.map decP).getD 0 dfltP).x, (T1.points.getD 0 dfltP).x) = _
    rw [hg1, hg2]
    have hx1 : (decP ⟨Int.ofNat 0, 1, 1, none⟩).x = 1/1000 := by
      show fnDiv (1 : Rat).num = 1/1000
      rw [show (1 : Rat).num = 1 from rfl]
      rw [fnDiv]
      norm_num
    rw [hx1]
  · intro h
    rw [abs_of_nonneg (by norm_num : (0:Rat) ≤ 1 - 1/1000)] at h
    norm_num at h

-- ### C5: the uncompressed serialization does not survive its own parser

theorem deExpandGo_all_skip (l : List P) (lp : P)
    (h : ∀ p ∈ l, p.x = lp.x ∧ p.y = lp.y ∧ p.a = none) :
    Trace.deExpandGo l (some lp) = [] := by
  induction l generalizing lp with
  | nil => rfl
  | cons p rest ih =>
    have hp := h p (List.mem_cons_self _ _)
    show (if p.x = lp.x ∧ p.y = lp.y ∧ p.a = none then Trace.deExpandGo rest (some lp)
      else p :: Trace.deExpandGo rest (some p)) = []
    rw [if_pos hp]
    exact ih lp (fun q hq => h q (List.mem_cons_of_mem _ hq))

theorem cQuant_half : Trace.cQuant (1/2) = 500 := by
  have hm : min (max (1/2 : Rat) 0) 1 = 1/2 := by norm_num
  rw [Trace.cQuant]
  simp only [hm]
  rw [if_neg (by norm_num : ¬(1/2 : Rat) = 1), if_neg (by norm_num : ¬(1/2 : Rat) = 0)]
  norm_num

/-- C5 (code bug): serializing the `(0.5, 0.5)` trace uncompressed and feeding
the result back to `Trace.parse` fails: `serialize(false)` quantizes the
coordinates to integers `0..999` but tags the payload `'parsed'`, whose schema
requires coordinates in `[0, 1]`, so `TraceSchema` rejects the value 500 and
the claimed round trip does not hold. -/
theorem c5_claim_bug :
    (Trace.serialize Thalf false).bind Trace.parse = .error "ZodError" := by
  have hd : Trace.hasDecimal Thalf.points = true :=
    hasDecimal_eq_true ⟨⟨Int.ofNat 0, 1/2, 1/2, none⟩,
      List.mem_map.mpr ⟨0, List.mem_range.mpr (by norm_num), rfl⟩,
      by show ¬((1/2 : Rat).den = 1 ∧ (1/2 : Rat).den = 1); norm_num⟩
  have hconv : Trace.convert Thalf.points = Thalf.points.map Trace.quantP :=
    convert_eq_map hd
  have hmm : Thalf.points.map Trace.quantP =
      (List.range 640).map (fun k => (⟨Int.ofNat k, (Trace.cQuant (1/2) : Rat),
        (Trace.cQuant (1/2) : Rat), none⟩ : P)) := by
    show ((List.range 640).map (fun k => (⟨Int.ofNat k, 1/2, 1/2, none⟩ : P))).map
      Trace.quantP = _
    rw [List.map_map]
    rfl
  have hdeex : Trace.deExpand (Thalf.points.map Trace.quantP) =
      [⟨Int.ofNat 0, (Trace.cQuant (1/2) : Rat), (Trace.cQuant (1/2) : Rat), none⟩] := by
    rw [hmm, List.range_eq_range', show (640 : Nat) = 639 + 1 from rfl, List.range'_succ,
      List.map_cons, Trace.deExpand, deExpandGo_cons_none,
      deExpandGo_all_skip _ _ ?_]
    intro p hp
    obtain ⟨k, hk, rfl⟩ := List.mem_map.mp hp
    exact ⟨rfl, rfl, rfl⟩
  have hser : Trace.serialize Thalf false =
      .ok (.tagged "parsed" (.arr [⟨Int.ofNat 0, (Trace.cQuant (1/2) : Rat),
        (Trace.cQuant (1/2) : Rat), none⟩])) := by
    show Except.ok (Input.tagged "parsed" (.arr (Trace.deExpand
      (Trace.convert Thalf.points)))) = _
    rw [hconv, hdeex]
  have hnotschema : ¬ schemaOK [(⟨Int.ofNat 0, (Trace.cQuant (1/2) : Rat),
      (Trace.cQuant (1/2) : Rat), none⟩ : P)] := by
    intro hs
    have hx := (hs _ (List.mem_singleton_self _)).2.2.2.1
    rw [show ((⟨Int.ofNat 0, (Trace.cQuant (1/2) : Rat),
      (Trace.cQuant (1/2) : Rat), none⟩ : P)).x = (Trace.cQuant (1/2) : Rat) from rfl,
      cQuant_half] at hx
    norm_num at hx
  rw [hser]
  show Trace.parse (.tagged "parsed" (.arr [⟨Int.ofNat 0, (Trace.cQuant (1/2) : Rat),
    (Trace.cQuant (1/2) : Rat), none⟩])) = _
  show (if schemaOK [(⟨Int.ofNat 0, (Trace.cQuant (1/2) : Rat),
    (Trace.cQuant (1/2) : Rat), none⟩ : P)]
    then mkTrace (Trace.expand _) else .error "ZodError") = _
  rw [if_neg hnotschema]

-- ### C9: malformed compressed input fails as a value, not a fault

/-- C9: `Trace.parse` of a compressed payload whose encoded point has a
1-character numeric field (`"AAA"`: 2-char time, then only one char left for
`x`) surfaces `decompressNum`'s length error as an error value of the
returned Result — the decode failure propagates through `decompress` and the
`attempt` wrapper rather than escaping as a fault.  (In the embedding every
`Trace.parse` call is a total function into `Except`, the model of the
never-throws contract.) -/
theorem c9_claim :
    Trace.parse (.tagged "compressed" (.str ['A', 'A', 'A'])) =
      .error "Expected 2 characters" := by
  rfl
